import Mathlib

/-!
Verification of the careflix watch-party chat widget and broadcast event.

The development shallowly embeds:
- `groupPartyLogs` from src/ui/src/screens/app.watch.home/ChatWidget/index.tsx
  (lines 481-517), the pure chat-log grouping function;
- the chat reducer of the same file (lines 67-125), in particular the
  branches for chat:error and chat:success;
- the data flow of `handleMessage` (lines 275-329): the optimistic dispatch,
  the sounds played, the HTTP request that is sent, and the ids used in the
  reconciliation dispatches;
- the pusher `log` event handler (lines 196-212);
- the `PartyState` broadcast event class (PHP source, class PartyState).

Users are identified by their id, following the data model (a message
payload carries an author user id); the grouping code compares authors by
user id only.
-/

/-- A user, identified by id (the only user attribute the embedded code
compares). -/
structure AppUser where
  id : Nat
deriving DecidableEq, Repr

/-- The message payload of a log entry: `{id, text, user}`. -/
structure AppMessage where
  id : String
  text : String
  user : AppUser
deriving DecidableEq, Repr

/-- The activity payload of a log entry: `{text, user}`. -/
structure AppActivity where
  text : String
  user : AppUser
deriving DecidableEq, Repr

/-- The discriminator string of a log entry: either activity or message. -/
inductive LogType
  | activity
  | message
deriving DecidableEq, Repr

/-- The variant payload of a log entry.  In the TypeScript source a log has
two nullable fields `message` and `activity` and the field named by
`log.type` is the populated one; the variant captures that invariant, which
the code relies on when it reads `log[log.type].user`. -/
inductive LogPayload
  | message (m : AppMessage)
  | activity (a : AppActivity)
deriving DecidableEq, Repr

/-- A party log entry. -/
structure AppPartyLog where
  id : String
  party_id : Nat
  payload : LogPayload
  created_at : String
  updated_at : String
deriving DecidableEq, Repr

/-- The `type` field of a log entry, determined by the populated payload. -/
def AppPartyLog.type (l : AppPartyLog) : LogType :=
  match l.payload with
  | .message _ => .message
  | .activity _ => .activity

/-- The access `log[log.type].user` from the source: the user of the
populated payload. -/
def AppPartyLog.user (l : AppPartyLog) : AppUser :=
  match l.payload with
  | .message m => m.user
  | .activity a => a.user

/-- A rendered group of consecutive log entries (interface GroupedLog). -/
structure GroupedLog where
  type : LogType
  user : AppUser
  logs : List AppPartyLog
deriving DecidableEq, Repr

/-- A fresh singleton group for one entry, as built at lines 488-494 and
508-512 of the widget source: `{type: log.type, user: log[log.type].user,
logs: [log]}`. -/
def mkGroup (log : AppPartyLog) : GroupedLog :=
  { type := log.type, user := log.user, logs := [log] }

/-- The merge test at lines 501-503 of the widget source, verbatim:
`(log.type === activity && recent.type === log.type) ||
 (log.type === message && recent.type === log.type &&
  recent.user.id === log.message.user.id)`. -/
def fitsRecent (recent : GroupedLog) (log : AppPartyLog) : Bool :=
  (log.type == .activity && recent.type == log.type) ||
  (log.type == .message && recent.type == log.type && recent.user.id == log.user.id)

/-- One iteration of the forEach loop at lines 497-514: compare the entry
against the last group only; either push the entry into that group or push a
fresh singleton group.  Inside `groupPartyLogs` the accumulator is never
empty (it starts with one group), so the empty case only totalises the
function; it produces the singleton group a first entry would produce. -/
def pushLog (groups : List GroupedLog) (log : AppPartyLog) : List GroupedLog :=
  match groups.getLast? with
  | none => [mkGroup log]
  | some recent =>
    if fitsRecent recent log then
      groups.dropLast ++ [{ recent with logs := recent.logs ++ [log] }]
    else
      groups ++ [mkGroup log]

/-- `groupPartyLogs` (lines 481-517): empty input gives no groups; otherwise
start from a singleton group of the first entry and fold the loop body over
the remaining entries. -/
def groupPartyLogs : List AppPartyLog → List GroupedLog
  | [] => []
  | first :: rest => rest.foldl pushLog [mkGroup first]

/-- Transcribed from the words of the spec (section 4.3): the entry joins
the open group when its type is activity and the open group is an activity
group, or when its type is message and the open group is a message group by
the same author. -/
def specCriterion (g : GroupedLog) (e : AppPartyLog) : Bool :=
  (e.type == .activity && g.type == .activity) ||
  (e.type == .message && g.type == .message && e.user == g.user)

/-- Transcribed from the words of the spec (section 4.3): walk the entries
left to right carrying the open group; append to it while the criterion
holds, otherwise close it and open a fresh singleton group. -/
def groupSpecAux (g : GroupedLog) : List AppPartyLog → List GroupedLog
  | [] => [g]
  | e :: rest =>
    if specCriterion g e then
      groupSpecAux { g with logs := g.logs ++ [e] } rest
    else
      g :: groupSpecAux (mkGroup e) rest

/-- Transcribed from the words of the spec (section 4.3): initialise the
group list with the first entry as a singleton group tagged by its type and
author, then process each subsequent entry. -/
def groupSpec : List AppPartyLog → List GroupedLog
  | [] => []
  | first :: rest => groupSpecAux (mkGroup first) rest

/-- The entries of a group list, concatenated in order. -/
def joinGroups (gs : List GroupedLog) : List AppPartyLog :=
  (gs.map GroupedLog.logs).flatten

/-- Well-formedness of one rendered group: non-empty, homogeneous in type,
and (for message groups) homogeneous in author. -/
def GroupWF (g : GroupedLog) : Prop :=
  g.logs ≠ [] ∧ (∀ x ∈ g.logs, x.type = g.type) ∧
    (g.type = .message → ∀ x ∈ g.logs, x.user = g.user)

/-- The draft message of the widget state (`message: { text }`). -/
structure ChatMessageDraft where
  text : String
deriving DecidableEq, Repr

/-- The reducer state of the widget (interface State). -/
structure ChatState where
  logs : List AppPartyLog
  message : ChatMessageDraft
  isSending : List (Nat × String)
  isLoading : Bool
deriving DecidableEq, Repr

/-- The reducer actions of the widget (type Action). -/
inductive ChatAction
  | requestInit
  | requestError
  | requestSuccess (logs : List AppPartyLog)
  | logsPush (log : AppPartyLog)
  | chatInput (input : String)
  | chatInit (log : AppPartyLog)
  | chatSuccess (id : String) (log : AppPartyLog)
  | chatError (id : String)
deriving DecidableEq, Repr

/-- JavaScript `Array.prototype.findIndex`: the index of the first entry
with the given id, or -1 when none matches. -/
def jsFindIndex (logs : List AppPartyLog) (id : String) : Int :=
  match logs.findIdx? (fun l => l.id == id) with
  | some k => (k : Int)
  | none => -1

/-- A JavaScript assignment `arr[i] = v` on an array of log entries.  At an
in-bounds index it replaces the element; at a negative index it attaches a
non-element property and leaves every element of the array unchanged.  The
indices reaching this operation in the reducer come from findIndex, so they
are either in bounds or equal to -1. -/
def jsWriteAt (logs : List AppPartyLog) (i : Int) (v : AppPartyLog) : List AppPartyLog :=
  if 0 ≤ i then logs.set i.toNat v else logs

/-- The widget reducer (lines 67-125 of the source), branch by branch.  The
immer branches are written as the functional updates they perform; the
chat:error branch returns a copy of the state with no field changed, and
the chat:success branch writes the authoritative log at the index found for
the payload id, with no guard for a missing id. -/
def reducer (s : ChatState) (a : ChatAction) : ChatState :=
  match a with
  | .requestInit => { s with isLoading := true }
  | .requestSuccess logs => { s with logs := logs, isLoading := false }
  | .requestError => { s with isLoading := false }
  | .logsPush log => { s with logs := s.logs ++ [log] }
  | .chatInput input => { s with message := { text := input } }
  | .chatInit log => { s with message := { text := "" }, logs := s.logs ++ [log] }
  | .chatError _ => s
  | .chatSuccess id log => { s with logs := jsWriteAt s.logs (jsFindIndex s.logs id) log }

/-- Whitespace as trimmed by the submit guard (space, tab, newline and
carriage return). -/
def isSpaceChar (c : Char) : Bool :=
  c == ' ' || c == '\t' || c == '\n' || c == '\r'

/-- JavaScript trimLeft on the character list of the draft text. -/
def trimLeftChars (l : List Char) : List Char :=
  l.dropWhile isSpaceChar

/-- JavaScript trimRight on the character list of the draft text. -/
def trimRightChars (l : List Char) : List Char :=
  (l.reverse.dropWhile isSpaceChar).reverse

/-- `isSubmittable` (line 150): the draft text trimmed on the right then on
the left is non-empty. -/
def isSubmittable (text : String) : Bool :=
  0 < (trimLeftChars (trimRightChars text.data)).length

/-- The sounds the widget can play: the send sound of the submit path and
the idle (attention) sound of the pusher handler. -/
inductive Sound
  | send
  | idle
deriving DecidableEq, Repr

/-- An HTTP POST request as issued by the submit path: url and body fields. -/
structure SendRequest where
  url : String
  body : List (String × String)
deriving DecidableEq, Repr

/-- The observable run of one `handleMessage` call: the actions dispatched
before the request, the sounds played, the request (none when the draft is
not submittable), and the id placed in the chat:error and chat:success
payloads for reconciliation. -/
structure HandleMessageRun where
  dispatched : List ChatAction
  sounds : List Sound
  request : Option SendRequest
  errorId : Option String
  successId : Option String
deriving DecidableEq, Repr

/-- `handleMessage` (lines 275-329), as a function of the data it reads: the
party id, the draft text, the authenticated user, the two generated uuids
and the formatted date.  When the draft is not submittable it returns early
with no effect.  Otherwise it dispatches chat:init with the optimistic log,
plays the send sound, and posts only `{message: text}` to the logs/message
endpoint; the generated log id is used in the chat:error payload on failure
and in the chat:success payload on success. -/
def handleMessage (partyId : Nat) (text : String) (user : AppUser)
    (id messageId : String) (date : String) : HandleMessageRun :=
  if isSubmittable text then
    let log : AppPartyLog :=
      { id := id, party_id := partyId,
        payload := .message { id := messageId, text := text, user := user },
        created_at := date, updated_at := date }
    { dispatched := [.chatInit log]
      sounds := [.send]
      request := some { url := "/api/parties/" ++ toString partyId ++ "/logs/message",
                        body := [("message", text)] }
      errorId := some id
      successId := some id }
  else
    { dispatched := [], sounds := [], request := none, errorId := none, successId := none }

/-- Whether a `handleMessage` run carries the generated log id to the
server: some field of the request body is the literal key id or holds the
id as its value.  (Formalises the wording of claim C4.) -/
def requestCarriesId (run : HandleMessageRun) (id : String) : Bool :=
  match run.request with
  | none => false
  | some r => r.body.any (fun kv => kv.1 == "id" || kv.2 == id)

/-- The observable run of the pusher `log` handler. -/
structure PusherLogRun where
  dispatched : List ChatAction
  sounds : List Sound
deriving DecidableEq, Repr

/-- The pusher `log` event handler (lines 196-212): dispatch logs:push, and
play the idle sound exactly when the window is not visible and the incoming
log is a message. -/
def pusherLogHandler (isWindowVisible : Bool) (log : AppPartyLog) : PusherLogRun :=
  { dispatched := [.logsPush log]
    sounds := if !isWindowVisible && log.type == .message then [.idle] else [] }

/-- Modelled from the spec: the server-side broadcast of `log` events is not
among the reviewed sources (only the `PartyState` event class is), so
whether a message event reaches its own author over the channel is decided
by code outside src/.  Section 4.5 of the spec states that a message event
triggers an attention side effect for subscribers currently marked
not-visible, but never for the events own author.  The attention decision
for a subscriber therefore combines author exclusion with the client
handler visibility test embedded above. -/
def attentionEffect (author subscriber : AppUser) (subscriberVisible : Bool)
    (log : AppPartyLog) : Bool :=
  subscriber != author && (pusherLogHandler subscriberVisible log).sounds.contains .idle

/-- The party model read by the `PartyState` broadcast event. -/
structure Party where
  id : Nat
  is_playing : Bool
  current_time : Nat
deriving DecidableEq, Repr

/-- A scalar JSON value appearing in the broadcast payload. -/
inductive Leaf
  | b (x : Bool)
  | n (x : Nat)
deriving DecidableEq, Repr

/-- A broadcast channel: whether it is private, and its name. -/
structure BroadcastChannel where
  isPrivate : Bool
  name : String
deriving DecidableEq, Repr

/-- `PartyState::broadcastOn`: a private channel named party.{id}. -/
def PartyState.broadcastOn (p : Party) : BroadcastChannel :=
  { isPrivate := true, name := "party." ++ toString p.id }

/-- `PartyState::broadcastAs`: the event name is state. -/
def PartyState.broadcastAs : String := "state"

/-- `PartyState::broadcastWith`: the payload is a single field named state
whose value holds is_playing and current_time of the party. -/
def PartyState.broadcastWith (p : Party) : List (String × List (String × Leaf)) :=
  [("state", [("is_playing", .b p.is_playing), ("current_time", .n p.current_time)])]

/-- Demo users for the concrete claims: an actor and two chat authors. -/
def userA : AppUser := { id := 1 }

def userU1 : AppUser := { id := 2 }

def userU2 : AppUser := { id := 3 }

/-- Demo entries matching the grouping test of the spec (section 8). -/
def logAct1 : AppPartyLog :=
  { id := "l1", party_id := 9, payload := .activity { text := "joined", user := userA },
    created_at := "t1", updated_at := "t1" }

def logAct2 : AppPartyLog :=
  { id := "l2", party_id := 9, payload := .activity { text := "paused", user := userA },
    created_at := "t2", updated_at := "t2" }

def logMsg1 : AppPartyLog :=
  { id := "l3", party_id := 9, payload := .message { id := "m3", text := "hi", user := userU1 },
    created_at := "t3", updated_at := "t3" }

def logMsg2 : AppPartyLog :=
  { id := "l4", party_id := 9, payload := .message { id := "m4", text := "yo", user := userU1 },
    created_at := "t4", updated_at := "t4" }

def logMsg3 : AppPartyLog :=
  { id := "l5", party_id := 9, payload := .message { id := "m5", text := "hey", user := userU2 },
    created_at := "t5", updated_at := "t5" }

/-- The demo input list of the grouping test. -/
def demoLogs : List AppPartyLog := [logAct1, logAct2, logMsg1, logMsg2, logMsg3]

/-- A demo reducer state holding two pending entries. -/
def demoState : ChatState :=
  { logs := [logAct1, logMsg1], message := { text := "" }, isSending := [], isLoading := false }

/-- A demo authoritative server log sharing the id of logMsg1. -/
def demoServerLog : AppPartyLog :=
  { id := "srv-3", party_id := 9, payload := .message { id := "m3", text := "hi", user := userU1 },
    created_at := "t3", updated_at := "t3" }

theorem AppUser.eq_iff_id (u v : AppUser) : u = v ↔ u.id = v.id := by
  cases u; cases v; simp

theorem beq_user_symm (u v : AppUser) : (u.id == v.id) = (v == u) := by
  rw [Bool.eq_iff_iff, beq_iff_eq, beq_iff_eq, AppUser.eq_iff_id]
  exact eq_comm

theorem fitsRecent_eq_specCriterion (g : GroupedLog) (e : AppPartyLog) :
    fitsRecent g e = specCriterion g e := by
  unfold fitsRecent specCriterion
  cases he : e.type <;> cases hg : g.type
  · rfl
  · rfl
  · rfl
  · exact beq_user_symm g.user e.user

theorem pushLog_concat (gs : List GroupedLog) (g : GroupedLog) (e : AppPartyLog) :
    pushLog (gs ++ [g]) e =
      if specCriterion g e then gs ++ [{ g with logs := g.logs ++ [e] }]
      else (gs ++ [g]) ++ [mkGroup e] := by
  have h1 : pushLog (gs ++ [g]) e =
      if fitsRecent g e then (gs ++ [g]).dropLast ++ [{ g with logs := g.logs ++ [e] }]
      else (gs ++ [g]) ++ [mkGroup e] := by
    unfold pushLog
    rw [List.getLast?_concat]
  rw [h1, List.dropLast_concat, fitsRecent_eq_specCriterion]

theorem foldl_pushLog_concat (rest : List AppPartyLog) :
    ∀ (gs : List GroupedLog) (g : GroupedLog),
      rest.foldl pushLog (gs ++ [g]) = gs ++ groupSpecAux g rest := by
  induction rest with
  | nil => intro gs g; simp [groupSpecAux]
  | cons e rest ih =>
    intro gs g
    rw [List.foldl_cons, pushLog_concat]
    simp only [groupSpecAux]
    cases hc : specCriterion g e
    · rw [if_neg (by simp [hc]), if_neg (by simp [hc]),
        ih (gs ++ [g]) (mkGroup e)]
      simp
    · rw [if_pos (by simp [hc]), if_pos (by simp [hc])]
      exact ih gs _

/-- Claim C1: for every ordered list of log entries, the grouping function
of the widget computes exactly the left-to-right grouping the spec
describes: it starts from a singleton group of the first entry, appends
each subsequent entry to the currently open (last) group exactly when the
entry is an activity and the open group is an activity group, or the entry
is a message and the open group is a message group by the same author, and
otherwise opens a new singleton group after the current one.  The right
side is transcribed from the words of the spec, the left side from the
widget source. -/
theorem groupPartyLogs_eq_groupSpec (logs : List AppPartyLog) :
    groupPartyLogs logs = groupSpec logs := by
  cases logs with
  | nil => rfl
  | cons first rest =>
    have h := foldl_pushLog_concat rest [] (mkGroup first)
    simpa [groupPartyLogs, groupSpec] using h

theorem joinGroups_nil : joinGroups [] = [] := rfl

theorem joinGroups_cons (g : GroupedLog) (gs : List GroupedLog) :
    joinGroups (g :: gs) = g.logs ++ joinGroups gs := by
  simp [joinGroups]

theorem joinGroups_groupSpecAux (rest : List AppPartyLog) :
    ∀ g : GroupedLog, joinGroups (groupSpecAux g rest) = g.logs ++ rest := by
  induction rest with
  | nil =>
    intro g
    simp [groupSpecAux, joinGroups]
  | cons e rest ih =>
    intro g
    simp only [groupSpecAux]
    cases hc : specCriterion g e
    · rw [if_neg (by simp [hc]), joinGroups_cons, ih]
      simp [mkGroup]
    · rw [if_pos (by simp [hc]), ih]
      simp

theorem mkGroup_wf (l : AppPartyLog) : GroupWF (mkGroup l) := by
  refine ⟨by simp [mkGroup], ?_, ?_⟩
  · intro x hx
    simp [mkGroup] at hx
    subst hx
    rfl
  · intro _ x hx
    simp [mkGroup] at hx
    subst hx
    rfl

theorem specCriterion_spec (g : GroupedLog) (e : AppPartyLog)
    (h : specCriterion g e = true) :
    e.type = g.type ∧ (g.type = .message → e.user = g.user) := by
  unfold specCriterion at h
  simp only [Bool.or_eq_true, Bool.and_eq_true, beq_iff_eq] at h
  rcases h with ⟨h1, h2⟩ | ⟨⟨h1, h2⟩, h3⟩
  · refine ⟨h1.trans h2.symm, fun hm => ?_⟩
    rw [h2] at hm
    exact absurd hm (by decide)
  · exact ⟨h1.trans h2.symm, fun _ => h3⟩

theorem merge_wf (g : GroupedLog) (e : AppPartyLog)
    (hc : specCriterion g e = true) (hg : GroupWF g) :
    GroupWF { g with logs := g.logs ++ [e] } := by
  obtain ⟨hne, hty, hau⟩ := hg
  obtain ⟨het, heu⟩ := specCriterion_spec g e hc
  refine ⟨by simp, ?_, ?_⟩
  · intro x hx
    rcases List.mem_append.mp hx with h1 | h2
    · exact hty x h1
    · simp at h2
      subst h2
      exact het
  · intro hm x hx
    rcases List.mem_append.mp hx with h1 | h2
    · exact hau hm x h1
    · simp at h2
      subst h2
      exact heu hm

theorem groupSpecAux_wf (rest : List AppPartyLog) :
    ∀ g : GroupedLog, GroupWF g → ∀ h ∈ groupSpecAux g rest, GroupWF h := by
  induction rest with
  | nil =>
    intro g hg h hh
    simp [groupSpecAux] at hh
    exact hh ▸ hg
  | cons e rest ih =>
    intro g hg h hh
    simp only [groupSpecAux] at hh
    cases hc : specCriterion g e
    · rw [if_neg (by simp [hc])] at hh
      rcases List.mem_cons.mp hh with h1 | h2
      · exact h1 ▸ hg
      · exact ih (mkGroup e) (mkGroup_wf e) h h2
    · rw [if_pos (by simp [hc])] at hh
      exact ih _ (merge_wf g e (by simp [hc]) hg) h hh

/-- Claim C2: on the demo input [activity by A, activity by A, message by
U1 hi, message by U1 yo, message by U2 hey] the grouping function returns
exactly three groups: an activity group of the two activity entries, a
message group of the two entries authored by U1, and a message group of the
single entry authored by U2, in that order. -/
theorem grouping_demo_three_groups :
    groupPartyLogs demoLogs =
      [ { type := .activity, user := userA, logs := [logAct1, logAct2] },
        { type := .message, user := userU1, logs := [logMsg1, logMsg2] },
        { type := .message, user := userU2, logs := [logMsg3] } ] := by
  rfl

/-- Claim C3: extending the input by one entry agrees with a full re-run:
grouping l ++ [e] equals the incremental step that inspects only the last
open group of the groups of l, appends e to it when the merge criterion
holds, and appends a new singleton group otherwise.  The step function
pushLog is exactly that operation: it reads only the last group. -/
theorem grouping_incremental_extension (l : List AppPartyLog) (e : AppPartyLog) :
    groupPartyLogs (l ++ [e]) = pushLog (groupPartyLogs l) e := by
  cases l with
  | nil => rfl
  | cons f rest =>
    show (rest ++ [e]).foldl pushLog [mkGroup f] = pushLog (rest.foldl pushLog [mkGroup f]) e
    rw [List.foldl_append]
    rfl

/-- Claim C9: the grouping function partitions its input preserving content
and order: concatenating the member entries of the groups in order yields
the input; every group is non-empty, homogeneous in type, and message
groups are homogeneous in author; and the empty input yields no groups. -/
theorem grouping_partition_invariants (l : List AppPartyLog) :
    joinGroups (groupPartyLogs l) = l ∧
    (∀ g ∈ groupPartyLogs l, GroupWF g) ∧
    groupPartyLogs ([] : List AppPartyLog) = [] := by
  refine ⟨?_, ?_, rfl⟩
  · cases l with
    | nil => rfl
    | cons f rest =>
      have h := foldl_pushLog_concat rest [] (mkGroup f)
      simp only [List.nil_append] at h
      show joinGroups (rest.foldl pushLog [mkGroup f]) = f :: rest
      rw [h, joinGroups_groupSpecAux]
      rfl
  · cases l with
    | nil =>
      intro g hg
      simp [groupPartyLogs] at hg
    | cons f rest =>
      intro g hg
      have h := foldl_pushLog_concat rest [] (mkGroup f)
      simp only [List.nil_append] at h
      have hg2 : g ∈ groupSpecAux (mkGroup f) rest := by
        rw [show groupPartyLogs (f :: rest) = rest.foldl pushLog [mkGroup f] from rfl, h] at hg
        exact hg
      exact groupSpecAux_wf rest (mkGroup f) (mkGroup_wf f) g hg2

/-- Witness for claim C9 at the concrete demo list: the groups flatten back
to the input. -/
theorem grouping_partition_invariants_witness :
    joinGroups (groupPartyLogs demoLogs) = demoLogs :=
  (grouping_partition_invariants demoLogs).1

theorem findIdx?_offset_some (p : AppPartyLog → Bool) (l : List AppPartyLog) :
    ∀ (k i : Nat) (hk : k < l.length),
      p (l.get ⟨k, hk⟩) = true →
      (∀ j (hj : j < l.length), j < k → p (l.get ⟨j, hj⟩) = false) →
      l.findIdx? p i = some (i + k) := by
  induction l with
  | nil =>
    intro k i hk
    exact absurd hk (by simp)
  | cons a t ih =>
    intro k i hk hp hmin
    rw [List.findIdx?_cons]
    cases k with
    | zero =>
      have ha : p a = true := by simpa using hp
      simp [ha]
    | succ k2 =>
      have ha : p a = false := hmin 0 (by simp) (Nat.succ_pos k2)
      rw [ha]
      have hk2 : k2 < t.length := by simpa using hk
      have hp2 : p (t.get ⟨k2, hk2⟩) = true := by simpa using hp
      have hmin2 : ∀ j (hj : j < t.length), j < k2 → p (t.get ⟨j, hj⟩) = false := by
        intro j hj hjk
        have := hmin (j + 1) (by simpa using hj) (by omega)
        simpa using this
      simp only [Bool.false_eq_true, if_false]
      rw [ih k2 (i + 1) hk2 hp2 hmin2]
      congr 1
      omega

theorem findIdx?_of_mem (p : AppPartyLog → Bool) (l : List AppPartyLog) :
    ∀ i : Nat, (∃ x ∈ l, p x = true) →
      ∃ k, l.findIdx? p i = some (i + k) ∧ k < l.length := by
  induction l with
  | nil =>
    intro i h
    obtain ⟨x, hx, _⟩ := h
    exact absurd hx (by simp)
  | cons a t ih =>
    intro i h
    rw [List.findIdx?_cons]
    cases ha : p a
    · obtain ⟨x, hx, hpx⟩ := h
      have hxt : x ∈ t := by
        rcases List.mem_cons.mp hx with h1 | h2
        · rw [h1] at hpx
          rw [hpx] at ha
          cases ha
        · exact h2
      obtain ⟨k, hfind, hlt⟩ := ih (i + 1) ⟨x, hxt, hpx⟩
      refine ⟨k + 1, ?_, by simpa using Nat.succ_lt_succ hlt⟩
      simp only [Bool.false_eq_true, if_false]
      rw [hfind]
      congr 1
      omega
    · exact ⟨0, by simp, by simp⟩

/-- Claim C7: when the authoritative response for a sent message arrives,
the chat:success branch replaces exactly the log entry whose id equals the
pending client-generated id with the authoritative entry; the length of the
list, every other entry, and the relative order of entries are unchanged,
and no other field of the state changes.  The hypotheses say the pending id
occurs in the list at exactly one position. -/
theorem chat_success_replaces_by_id (s : ChatState) (i : String) (new : AppPartyLog)
    (k : Nat) (hk : k < s.logs.length)
    (hid : (s.logs.get ⟨k, hk⟩).id = i)
    (huniq : ∀ j (hj : j < s.logs.length), (s.logs.get ⟨j, hj⟩).id = i → j = k) :
    (reducer s (.chatSuccess i new)).logs = s.logs.set k new ∧
    (reducer s (.chatSuccess i new)).logs.length = s.logs.length ∧
    (reducer s (.chatSuccess i new)).logs[k]? = some new ∧
    (∀ j, j ≠ k → (reducer s (.chatSuccess i new)).logs[j]? = s.logs[j]?) ∧
    (reducer s (.chatSuccess i new)).message = s.message ∧
    (reducer s (.chatSuccess i new)).isSending = s.isSending ∧
    (reducer s (.chatSuccess i new)).isLoading = s.isLoading := by
  have hfind : s.logs.findIdx? (fun l => l.id == i) = some k := by
    have hmin : ∀ j (hj : j < s.logs.length), j < k →
        (fun l => l.id == i) (s.logs.get ⟨j, hj⟩) = false := by
      intro j hj hjk
      cases hpj : ((s.logs.get ⟨j, hj⟩).id == i)
      · exact hpj
      · exact absurd (huniq j hj (by simpa using hpj)) (by omega)
    have h := findIdx?_offset_some (fun l => l.id == i) s.logs k 0 hk
      (by rw [beq_iff_eq]; exact hid) hmin
    simpa using h
  have hlogs : (reducer s (ChatAction.chatSuccess i new)).logs = s.logs.set k new := by
    show jsWriteAt s.logs (jsFindIndex s.logs i) new = s.logs.set k new
    unfold jsFindIndex
    rw [hfind]
    unfold jsWriteAt
    simp
  refine ⟨hlogs, ?_, ?_, ?_, rfl, rfl, rfl⟩
  · rw [hlogs]
    exact List.length_set s.logs k new
  · rw [hlogs, List.getElem?_set]
    simp [hk]
  · intro j hj
    rw [hlogs, List.getElem?_set]
    simp [Ne.symm hj]

/-- Witness for claim C7 at a concrete state of two entries: replacing the
pending message entry keeps the activity entry and the order. -/
theorem chat_success_replaces_by_id_witness :
    (reducer demoState (ChatAction.chatSuccess "l3" demoServerLog)).logs =
      [logAct1, demoServerLog] := by
  have h := chat_success_replaces_by_id demoState "l3" demoServerLog 1 (by decide)
    (by decide) (by decide)
  rw [h.1]
  rfl

/-- Claim C8: the chat:error branch of the reducer is a stub: for every
state and id it returns the state unchanged, so the optimistically appended
pending entry stays in the logs and no field is modified. -/
theorem chat_error_is_stub (s : ChatState) (id : String) :
    reducer s (.chatError id) = s ∧ (reducer s (.chatError id)).logs = s.logs :=
  ⟨rfl, rfl⟩

/-- Claim C10: the chat:success branch indexes the logs array at the result
of an unguarded find-by-id; whenever some entry of the state has the
payload id, the lookup succeeds and the write is in bounds, so the branch
at index -1 is not reached. -/
theorem chat_success_index_in_bounds (s : ChatState) (i : String)
    (h : ∃ l ∈ s.logs, l.id = i) :
    0 ≤ jsFindIndex s.logs i ∧
      (jsFindIndex s.logs i).toNat < s.logs.length ∧
      jsFindIndex s.logs i ≠ -1 := by
  have hex : ∃ x ∈ s.logs, (fun l => l.id == i) x = true := by
    obtain ⟨x, hx, hxi⟩ := h
    exact ⟨x, hx, by simp [hxi]⟩
  obtain ⟨k, hfind, hk⟩ := findIdx?_of_mem (fun l => l.id == i) s.logs 0 hex
  have hfind2 : s.logs.findIdx? (fun l => l.id == i) = some k := by simpa using hfind
  have h0 : jsFindIndex s.logs i = (k : Int) := by
    unfold jsFindIndex
    rw [hfind2]
  refine ⟨by rw [h0]; exact Int.ofNat_nonneg k, ?_, by rw [h0]; omega⟩
  rw [h0]
  simpa using hk

/-- Witness for claim C10 at the concrete demo state. -/
theorem chat_success_index_in_bounds_witness :
    0 ≤ jsFindIndex demoState.logs "l3" ∧
      (jsFindIndex demoState.logs "l3").toNat < demoState.logs.length ∧
      jsFindIndex demoState.logs "l3" ≠ -1 :=
  chat_success_index_in_bounds demoState "l3" ⟨logMsg1, by decide, by decide⟩

/-- Claim C4 counterexample: a concrete submission with draft text hi and
generated log id c1d2 posts a body holding only the message text: no field
of the body is the key id and none carries the generated id, so this
submission does not transmit the idempotency key to the server. -/
theorem send_request_lacks_id :
    (handleMessage 1 "hi" userA "c1d2" "m9" "t0").request =
      some { url := "/api/parties/1/logs/message", body := [("message", "hi")] } ∧
    requestCarriesId (handleMessage 1 "hi" userA "c1d2" "m9" "t0") "c1d2" = false := by
  decide

/-- Claim C4, amended: the client keeps the generated id local.  For every
submittable draft, the optimistic chat:init log carries the id, and the
chat:error and chat:success reconciliation payloads reference it, but the
POST body contains only the message text: the idempotency key is not sent
to the server. -/
theorem send_keeps_id_local (partyId : Nat) (text : String) (user : AppUser)
    (id messageId date : String) (hsub : isSubmittable text = true) :
    (handleMessage partyId text user id messageId date).request =
      some { url := "/api/parties/" ++ toString partyId ++ "/logs/message",
             body := [("message", text)] } ∧
    (handleMessage partyId text user id messageId date).dispatched =
      [ChatAction.chatInit
        { id := id, party_id := partyId,
          payload := .message { id := messageId, text := text, user := user },
          created_at := date, updated_at := date }] ∧
    (handleMessage partyId text user id messageId date).errorId = some id ∧
    (handleMessage partyId text user id messageId date).successId = some id := by
  unfold handleMessage
  rw [hsub]
  exact ⟨rfl, rfl, rfl, rfl⟩

/-- Witness for the amended claim C4 at a concrete submission. -/
theorem send_keeps_id_local_witness :
    (handleMessage 9 "yo" userU1 "c9" "m9" "t9").errorId = some "c9" ∧
    (handleMessage 9 "yo" userU1 "c9" "m9" "t9").successId = some "c9" ∧
    (handleMessage 9 "yo" userU1 "c9" "m9" "t9").request =
      some { url := "/api/parties/9/logs/message", body := [("message", "yo")] } := by
  have h := send_keeps_id_local 9 "yo" userU1 "c9" "m9" "t9" (by decide)
  exact ⟨h.2.2.1, h.2.2.2, h.1.trans (by decide)⟩

/-- Claim C5: an incoming message event plays the attention sound exactly
for a receiving subscriber whose window is not visible; the author of a
message never receives the attention effect for their own message; and the
author send path plays only the send sound, never the idle sound.  The
exclusion of the author from the channel delivery is modelled from the spec
(see attentionEffect); the handler and the send path are embedded from the
widget source. -/
theorem message_attention_semantics (author subscriber : AppUser) (visible : Bool)
    (log : AppPartyLog) (hmsg : log.type = .message) :
    (attentionEffect author subscriber visible log = true ↔
      (subscriber ≠ author ∧ visible = false)) ∧
    attentionEffect author author visible log = false ∧
    ((pusherLogHandler visible log).sounds = if visible then [] else [Sound.idle]) ∧
    (∀ (partyId : Nat) (text id messageId date : String),
      Sound.idle ∉ (handleMessage partyId text author id messageId date).sounds) ∧
    (∀ (partyId : Nat) (text id messageId date : String),
      isSubmittable text = true →
      (handleMessage partyId text author id messageId date).sounds = [Sound.send]) := by
  refine ⟨?_, ?_, ?_, ?_, ?_⟩
  · cases visible <;> simp [attentionEffect, pusherLogHandler, hmsg, bne_iff_ne]
  · simp [attentionEffect]
  · cases visible <;> simp [pusherLogHandler, hmsg]
  · intro partyId text id messageId date
    cases hsub : isSubmittable text <;> simp [handleMessage, hsub]
  · intro partyId text id messageId date hsub
    simp [handleMessage, hsub]

/-- Witness for claim C5: a hidden non-author subscriber gets the attention
effect for a concrete message, the author does not, and a concrete send
plays no idle sound. -/
theorem message_attention_semantics_witness :
    attentionEffect userU1 userU2 false logMsg1 = true ∧
    attentionEffect userU1 userU1 false logMsg1 = false ∧
    Sound.idle ∉ (handleMessage 9 "hi" userU1 "k1" "m1" "t1").sounds := by
  have h := message_attention_semantics userU1 userU2 false logMsg1 (by rfl)
  have h2 := message_attention_semantics userU1 userU1 false logMsg1 (by rfl)
  exact ⟨h.1.mpr ⟨by decide, rfl⟩, h2.2.1, h.2.2.2.1 9 "hi" "k1" "m1" "t1"⟩

/-- Claim C6 counterexample: for a concrete party the broadcast payload has
the single top-level field state, not the fields is_playing and
current_time, so the payload is not as the claim states it. -/
theorem state_payload_not_flat :
    (PartyState.broadcastWith { id := 7, is_playing := true, current_time := 42 }).map
        Prod.fst ≠ ["is_playing", "current_time"] ∧
    "is_playing" ∉ (PartyState.broadcastWith
        { id := 7, is_playing := true, current_time := 42 }).map Prod.fst ∧
    (PartyState.broadcastWith { id := 7, is_playing := true, current_time := 42 }).map
        Prod.fst = ["state"] := by
  decide

/-- Claim C6, amended: for every party the state broadcast goes out on the
private per-party channel named party.{id} with event name state, and its
payload is a single field named state whose value contains exactly
is_playing and current_time taken from the party playback state. -/
theorem state_broadcast_envelope (p : Party) :
    PartyState.broadcastOn p = { isPrivate := true, name := "party." ++ toString p.id } ∧
    PartyState.broadcastAs = "state" ∧
    PartyState.broadcastWith p =
      [("state", [("is_playing", Leaf.b p.is_playing),
                  ("current_time", Leaf.n p.current_time)])] :=
  ⟨rfl, rfl, rfl⟩
